import Mathlib

/-!
# Verification of the reflectutil tag-string parser

Shallow embedding of the `reflectutil` Go library's struct-tag parsing core
(`ParseTagList`, `ParseTag`, `parseTagPositionList`,
`parseValueAndParameterList`, `parseParameterList`, the position extractor
methods and the list accessors `Get` / `WithName`).

Conventions of the embedding:
* Go strings are modelled as `List Char`.  The parsed syntax delimits
  everything with ASCII characters (space, colon, quote, backslash, the
  name alphabet `[A-Za-z0-9_]`), so Go's byte offsets coincide with
  character offsets on every slicing boundary the code ever uses; indices
  in the model are character positions.
* A Go function returning `(T, error)` with the usual "exactly one of the
  two is meaningful" contract is modelled as `Except E T`.  The public
  `ParseTagList` is modelled as `Option (List Tag) × Option parseError`
  to keep Go's "returns nil list plus the error / list plus nil error"
  shape observable.
* Error values are structured (constructor per `fmt.Errorf` site) instead
  of formatted strings; each constructor carries the same data the Go
  message interpolates.
-/

/-- The list `enumFrom i l` pairs every element of `l` with its position, starting
at `i` — the index/character pairs produced by Go's `for i, c := range tag`. -/
def enumFrom : Nat → List Char → List (Nat × Char)
  | _, [] => []
  | i, c :: rest => (i, c) :: enumFrom (i + 1) rest

/-- The slice `substr s a b` is the Go slice expression `s[a:b]`. -/
def substr (s : List Char) (a b : Nat) : List Char :=
  (s.drop a).take (b - a)

/-- The pair `splitFirst sep l` is Go's `strings.SplitN(l, sep, 2)`: the part before
the first `sep`, and `some` remainder when a `sep` occurred. -/
def splitFirst (sep : Char) : List Char → List Char × Option (List Char)
  | [] => ([], none)
  | c :: rest =>
    if c = sep then ([], some rest)
    else
      let p := splitFirst sep rest
      (c :: p.1, p.2)

/-- The list `splitAll sep l` is Go's `strings.Split(l, sep)` (split on every
occurrence; `Split("", sep) = [""]`). -/
def splitAll (sep : Char) : List Char → List (List Char)
  | [] => [[]]
  | c :: rest =>
    if c = sep then [] :: splitAll sep rest
    else
      match splitAll sep rest with
      | [] => [[c]]
      | t :: ts => (c :: t) :: ts

/-- Go `type Parameter struct { name, value string }`. -/
structure Parameter where
  name : List Char
  value : List Char
deriving DecidableEq, Repr

/-- Go `type Tag struct { name, value string; parameters ParameterList }`. -/
structure Tag where
  name : List Char
  value : List Char
  parameters : List Parameter
deriving DecidableEq, Repr

/-- Go `type Field struct { name string; index []int; typ reflect.Type;
tags TagList }`, modelled as `FieldDesc` because Mathlib reserves the
name `Field`.  The `typ` member is an opaque handle into the host
reflection facility (out of core scope per the spec) and carries no
information the accessors under verification inspect, so it is omitted. -/
structure FieldDesc where
  name : List Char
  index : List Nat
  tags : List Tag
deriving DecidableEq, Repr

/-- Go `type StructDescription struct { name string; typ reflect.Type;
fields FieldList }` (opaque `typ` omitted as in `FieldDesc`). -/
structure StructDescription where
  name : List Char
  fields : List FieldDesc
deriving DecidableEq, Repr

/-- The scanner states of `parseTagPositionList`. -/
inductive parseTagPositionListState
  | initial
  | readingName
  | expectValue
  | readingValue
  | readingEscapedCharacter
deriving DecidableEq, Repr

/-- Go `type tagPosition struct { nameStart, nameEnd, colon, valueStart,
valueEnd int }` (all indices are non-negative; `colon = 0` is the
"no value" sentinel). -/
structure tagPosition where
  nameStart : Nat
  nameEnd : Nat
  colon : Nat
  valueStart : Nat
  valueEnd : Nat
deriving DecidableEq, Repr

/-- The two `fmt.Errorf` sites of `parseTagPositionList`:
`unexpected '%c' at %d in state %s` and `unexpected eof in state %s`. -/
inductive scanError
  | unexpectedCharacter (c : Char) (i : Nat) (st : parseTagPositionListState)
  | unexpectedEndOfInput (st : parseTagPositionListState)
deriving DecidableEq, Repr

/-- Go `validTagNameCharacter`. -/
def validTagNameCharacter (c : Char) : Bool :=
  ('A' ≤ c && c ≤ 'Z') || ('a' ≤ c && c ≤ 'z') || ('0' ≤ c && c ≤ '9') || c == '_'

/-- One iteration of the `for i, c := range tag` loop body of
`parseTagPositionList`.  The Go `goto start` re-dispatches the same
character in the new state; both `goto` sites resolve immediately
(`Initial → ReadingName` re-reads a character that is a valid name
character and is consumed; `ReadingName → Initial` re-reads a space,
which is skipped), so the net effect is written directly. -/
def scanStep (st : parseTagPositionListState) (cur : tagPosition)
    (ps : List tagPosition) (i : Nat) (c : Char) :
    Except scanError (parseTagPositionListState × tagPosition × List tagPosition) :=
  match st with
  | .initial =>
    if c = ' ' then .ok (.initial, cur, ps)
    else if validTagNameCharacter c then
      .ok (.readingName, { cur with nameStart := i }, ps)
    else .error (.unexpectedCharacter c i .initial)
  | .readingName =>
    if validTagNameCharacter c then .ok (.readingName, cur, ps)
    else if c = ':' then
      .ok (.expectValue, { cur with nameEnd := i - 1, colon := i }, ps)
    else if c = ' ' then
      .ok (.initial, ⟨0, 0, 0, 0, 0⟩, ps ++ [{ cur with nameEnd := i - 1 }])
    else .error (.unexpectedCharacter c i .readingName)
  | .expectValue =>
    if c = ' ' then .ok (.expectValue, cur, ps)
    else if c = '"' then .ok (.readingValue, { cur with valueStart := i }, ps)
    else .error (.unexpectedCharacter c i .expectValue)
  | .readingValue =>
    if c = '"' then
      .ok (.initial, ⟨0, 0, 0, 0, 0⟩, ps ++ [{ cur with valueEnd := i }])
    else if c = '\\' then .ok (.readingEscapedCharacter, cur, ps)
    else .ok (.readingValue, cur, ps)
  | .readingEscapedCharacter => .ok (.readingValue, cur, ps)

/-- The whole character loop of `parseTagPositionList`. -/
def scanLoop : List (Nat × Char) → parseTagPositionListState → tagPosition →
    List tagPosition →
    Except scanError (parseTagPositionListState × tagPosition × List tagPosition)
  | [], st, cur, ps => .ok (st, cur, ps)
  | (i, c) :: rest, st, cur, ps =>
    match scanStep st cur ps i c with
    | .error e => .error e
    | .ok (st2, cur2, ps2) => scanLoop rest st2 cur2 ps2

/-- The end-of-input `switch state` of `parseTagPositionList`; `n` is
`len(tag)`. -/
def scanFinish (n : Nat) :
    Except scanError (parseTagPositionListState × tagPosition × List tagPosition) →
    Except scanError (List tagPosition)
  | .error e => .error e
  | .ok (st, cur, ps) =>
    match st with
    | .initial => .ok ps
    | .readingName => .ok (ps ++ [{ cur with nameEnd := n - 1 }])
    | .expectValue => .error (.unexpectedEndOfInput .expectValue)
    | .readingValue => .error (.unexpectedEndOfInput .readingValue)
    | .readingEscapedCharacter => .error (.unexpectedEndOfInput .readingEscapedCharacter)

/-- Go `parseTagPositionList`. -/
def parseTagPositionList (tag : List Char) : Except scanError (List tagPosition) :=
  scanFinish tag.length (scanLoop (enumFrom 0 tag) .initial ⟨0, 0, 0, 0, 0⟩ [])

/-- Go `tagNameAndValue`. -/
structure tagNameAndValue where
  name : List Char
  value : List Char
deriving DecidableEq, Repr

/-- Go `tagPosition.getName`: `s[t.nameStart : t.nameEnd+1]`. -/
def tagPosition.getName (t : tagPosition) (s : List Char) : List Char :=
  substr s t.nameStart (t.nameEnd + 1)

/-- Go `tagPosition.getValue`: empty when `colon == 0`, else
`s[t.valueStart : t.valueEnd+1]` (quotes included). -/
def tagPosition.getValue (t : tagPosition) (s : List Char) : List Char :=
  if t.colon = 0 then [] else substr s t.valueStart (t.valueEnd + 1)

/-- Go `tagPosition.getNameAndValue`. -/
def tagPosition.getNameAndValue (t : tagPosition) (s : List Char) : tagNameAndValue :=
  ⟨t.getName s, t.getValue s⟩

/-- Go `tagPositionList.getNamesAndValues` (on a non-nil list). -/
def getNamesAndValues (l : List tagPosition) (s : List Char) : List tagNameAndValue :=
  l.map (fun t => t.getNameAndValue s)

/-- The single error kind of the modelled unquoter (Go's
`strconv.ErrSyntax`). -/
inductive unquoteError
  | malformed
deriving DecidableEq, Repr

/-- Modelled from the spec: the Value Unquoter's escape table.  The
unquoter is Go's `strconv.Unquote`, which lives outside this repository;
per spec §4.3 it resolves "standard escape grammar: `\"`, `\\`, `\n`,
`\r`, `\t`, and other conventional single-character escapes".  The
conventional single-character escapes of that grammar are modelled here;
multi-character escapes (hex/octal/unicode) are outside the modelled
fragment and map to `none` (a failure). -/
def unquoteEscapedChar (e : Char) : Option Char :=
  if e = 'a' then some (Char.ofNat 7)
  else if e = 'b' then some (Char.ofNat 8)
  else if e = 'f' then some (Char.ofNat 12)
  else if e = 'n' then some (Char.ofNat 10)
  else if e = 'r' then some (Char.ofNat 13)
  else if e = 't' then some (Char.ofNat 9)
  else if e = 'v' then some (Char.ofNat 11)
  else if e = '\\' then some '\\'
  else if e = '\'' then some '\''
  else if e = '"' then some '"'
  else none

/-- Modelled from the spec: the body loop of the Value Unquoter (Go's
`strconv.Unquote` after the opening double quote, outside this
repository's source).  Consumes characters up to a closing quote that
must end the input; an unescaped interior quote, a raw newline, a
trailing backslash, an unsupported escape, or a missing closing quote is
malformed (§4.3: "Malformed escape sequences fail with `UnquoteError`"). -/
def unquoteBody : List Char → Except unquoteError (List Char)
  | [] => .error .malformed
  | [c] => if c = '"' then .ok [] else .error .malformed
  | c :: e :: rest =>
    if c = '"' then .error .malformed
    else if c = '\n' then .error .malformed
    else if c = '\\' then
      match unquoteEscapedChar e with
      | none => .error .malformed
      | some d =>
        match unquoteBody rest with
        | .error er => .error er
        | .ok l => .ok (d :: l)
    else
      match unquoteBody (e :: rest) with
      | .error er => .error er
      | .ok l => .ok (c :: l)

/-- Modelled from the spec: the Value Unquoter (Go `strconv.Unquote` on a
double-quoted literal, outside this repository's source).  Requires a
leading quote and delegates to `unquoteBody` for the rest. -/
def unquote (s : List Char) : Except unquoteError (List Char) :=
  match s with
  | c :: rest => if c = '"' then unquoteBody rest else .error .malformed
  | [] => .error .malformed

/-- Go `tagNameAndValue.unquotedValue`: empty value maps to empty output
with no error, otherwise `strconv.Unquote` (wrapping its error). -/
def tagNameAndValue.unquotedValue (t : tagNameAndValue) :
    Except unquoteError (List Char) :=
  if t.value = [] then .ok [] else unquote t.value

/-- The body of the `for _, e := range strings.Split(input, ",")` loop of
`parseParameterList`, iterated over the split entries. -/
def parseParameterListLoop : List (List Char) → List Parameter → List Parameter
  | [], acc => acc
  | e :: rest, acc =>
    if e = [] then parseParameterListLoop rest acc
    else
      match splitFirst ':' e with
      | (a, some b) => parseParameterListLoop rest (acc ++ [⟨a, b⟩])
      | (a, none) => parseParameterListLoop rest (acc ++ [⟨a, []⟩])

/-- Go `parseParameterList`.  Its only return statement is
`return parameters, nil`; the `Except` error type is kept to mirror the
Go signature, with no error-producing site in the body. -/
def parseParameterList (input : List Char) : Except Unit (List Parameter) :=
  .ok (parseParameterListLoop (splitAll ',' input) [])

/-- Go `parseValueAndParameterList`. -/
def parseValueAndParameterList (tagValue : List Char) :
    Except Unit (List Char × List Parameter) :=
  if tagValue = [] then .ok ([], [])
  else
    match splitFirst ',' tagValue with
    | (v, none) => .ok (v, [])
    | (v, some rest) =>
      if rest = [] then .ok (v, [])
      else
        match parseParameterList rest with
        | .error e => .error e
        | .ok parameters => .ok (v, parameters)

/-- Go `ParseTag`. -/
def ParseTag (name tagValue : List Char) : Except Unit Tag :=
  match parseValueAndParameterList tagValue with
  | .error e => .error e
  | .ok (value, parameters) => .ok ⟨name, value, parameters⟩

/-- The `fmt.Errorf` sites of `ParseTagList`, one constructor per wrap. -/
inductive parseError
  | couldNotParseStructTags (e : scanError)
  | couldNotUnquoteValue (tagName : List Char) (e : unquoteError)
  | couldNotParseValue (tagName : List Char) (e : Unit)
deriving DecidableEq, Repr

/-- The `for _, rawTag := range tagPositions.getNamesAndValues(input)` loop of
`ParseTagList`: builds up `tags`, or returns `nil` plus the first error. -/
def parseTagListLoop : List tagNameAndValue → List Tag →
    Option (List Tag) × Option parseError
  | [], acc => (some acc, none)
  | nv :: rest, acc =>
    match nv.unquotedValue with
    | .error e => (none, some (.couldNotUnquoteValue nv.name e))
    | .ok unq =>
      match ParseTag nv.name unq with
      | .error e => (none, some (.couldNotParseValue nv.name e))
      | .ok tag => parseTagListLoop rest (acc ++ [tag])

/-- Go `ParseTagList`.  The result is the pair Go returns: the `TagList`
component (`none` models Go's `nil`) and the `error` component. -/
def ParseTagList (input : List Char) : Option (List Tag) × Option parseError :=
  match parseTagPositionList input with
  | .error e => (none, some (.couldNotParseStructTags e))
  | .ok tps => parseTagListLoop (getNamesAndValues tps input) []

/-- Go `TagList.Get`: pointer to the first entry with the given name, or
nil. -/
def tagListGet : List Tag → List Char → Option Tag
  | [], _ => none
  | e :: rest, name => if e.name = name then some e else tagListGet rest name

/-- Go `FieldList.Get`: pointer to the first entry with the given name, or
nil. -/
def fieldListGet : List FieldDesc → List Char → Option FieldDesc
  | [], _ => none
  | e :: rest, name => if e.name = name then some e else fieldListGet rest name

/-- Go `StructDescription.Field`. -/
def StructDescription.field (s : StructDescription) (name : List Char) : Option FieldDesc :=
  fieldListGet s.fields name

/-- Go `Field.Tag`. -/
def FieldDesc.tag (f : FieldDesc) (name : List Char) : Option Tag :=
  tagListGet f.tags name

/-- Go `TagList.WithName`: appends every entry with the given name to a
fresh list, in order. -/
def withName (l : List Tag) (name : List Char) : List Tag :=
  l.foldl (fun r e => if e.name = name then r ++ [e] else r) []

/-- Spec-side (§4.4): one parameter entry is "split on the first colon
into `(name, value)` — no colon means `value = \"\"`".  Written from the
spec's words, for the refinement comparison of claim C3. -/
def specEntryToParameter (e : List Char) : Parameter :=
  match splitFirst ':' e with
  | (a, some b) => ⟨a, b⟩
  | (a, none) => ⟨a, []⟩

/-- Spec-side (§4.4) value/parameter splitting, written from the spec's
words (not from the code), for the refinement comparison of claim C3:
everything before the first comma is the primary value; the text after
it, when non-empty, is split on every comma, empty entries are dropped,
and each remaining entry becomes a parameter via its first colon. -/
def specSplitValueAndParameters (v : List Char) : List Char × List Parameter :=
  match splitFirst ',' v with
  | (primary, none) => (primary, [])
  | (primary, some after) =>
    if after = [] then (primary, [])
    else (primary,
      ((splitAll ',' after).filter (fun e => !e.isEmpty)).map specEntryToParameter)

/-- A character the scanner accepts outside quoted values: a space or a
valid tag name character. -/
def plainChar (c : Char) : Bool :=
  c == ' ' || validTagNameCharacter c

mutual

/-- The space-separated tokens of a string, reading from `Initial`
position: skip spaces, start a token at the first non-space. -/
def spaceTokensInit : List Char → List (List Char)
  | [] => []
  | c :: rest =>
    if c = ' ' then spaceTokensInit rest else spaceTokensName [c] rest

/-- The space-separated tokens while inside a token whose characters so
far are `pre`. -/
def spaceTokensName (pre : List Char) : List Char → List (List Char)
  | [] => [pre]
  | c :: rest =>
    if c = ' ' then pre :: spaceTokensInit rest
    else spaceTokensName (pre ++ [c]) rest

end

mutual

/-- The position records the scanner emits on an all-plain suffix starting
at offset `i` in state `Initial`. -/
def tokenPositionsInit : Nat → List Char → List tagPosition
  | _, [] => []
  | i, c :: rest =>
    if c = ' ' then tokenPositionsInit (i + 1) rest
    else tokenPositionsName i (i + 1) rest

/-- The position records the scanner emits on an all-plain suffix starting
at offset `i` in state `ReadingName` with the current name starting at
`start`. -/
def tokenPositionsName (start : Nat) : Nat → List Char → List tagPosition
  | i, [] => [⟨start, i - 1, 0, 0, 0⟩]
  | i, c :: rest =>
    if c = ' ' then ⟨start, i - 1, 0, 0, 0⟩ :: tokenPositionsInit (i + 1) rest
    else tokenPositionsName start (i + 1) rest

end

/-- One syntactic item of a well-formed quoted-value body: a plain
character or a backslash escape pair. -/
inductive QuoteItem
  | plain (c : Char)
  | esc (e : Char)
deriving DecidableEq, Repr

/-- The source characters of one quoted-body item. -/
def itemChars : QuoteItem → List Char
  | .plain c => [c]
  | .esc e => ['\\', e]

/-- The source characters of a quoted-body item sequence. -/
def itemsChars : List QuoteItem → List Char
  | [] => []
  | it :: rest => itemChars it ++ itemsChars rest

/-- Well-formedness of one quoted-body item: a plain character is not a
quote, a backslash or a newline; an escape is one of the supported
single-character escapes. -/
def goodQuoteItem : QuoteItem → Bool
  | .plain c => !(c == '"') && !(c == '\\') && !(c == '\n')
  | .esc e => (unquoteEscapedChar e).isSome

/-- The decoded (escape-resolved) text of one quoted-body item. -/
def itemDecode : QuoteItem → List Char
  | .plain c => [c]
  | .esc e =>
    match unquoteEscapedChar e with
    | some d => [d]
    | none => []

/-- The decoded (escape-resolved) text of a quoted-body item sequence. -/
def itemsDecode : List QuoteItem → List Char
  | [] => []
  | it :: rest => itemDecode it ++ itemsDecode rest

/-! ## General lemmas about the embedding -/

theorem parseParameterListLoop_spec (es : List (List Char)) :
    ∀ acc, parseParameterListLoop es acc =
      acc ++ (es.filter (fun e => !e.isEmpty)).map specEntryToParameter := by
  induction es with
  | nil => intro acc; simp [parseParameterListLoop]
  | cons e rest ih =>
    intro acc
    by_cases he : e = []
    · subst he
      simp [parseParameterListLoop, ih]
    · have hne : e.isEmpty = false := by
        cases e with
        | nil => exact absurd rfl he
        | cons a as => rfl
      cases hsf : splitFirst ':' e with
      | mk a b =>
        cases b with
        | none =>
          simp [parseParameterListLoop, he, hsf, hne, ih, specEntryToParameter,
            List.append_assoc]
        | some bv =>
          simp [parseParameterListLoop, he, hsf, hne, ih, specEntryToParameter,
            List.append_assoc]

theorem parseTagListLoop_shape (nvs : List tagNameAndValue) :
    ∀ acc, (∃ e, parseTagListLoop nvs acc = (none, some e)) ∨
      (∃ ts, parseTagListLoop nvs acc = (some ts, none) ∧
        ts.length = acc.length + nvs.length) := by
  induction nvs with
  | nil => intro acc; right; exact ⟨acc, rfl, by simp⟩
  | cons nv rest ih =>
    intro acc
    cases hu : nv.unquotedValue with
    | error e =>
      left
      exact ⟨parseError.couldNotUnquoteValue nv.name e, by simp [parseTagListLoop, hu]⟩
    | ok unq =>
      cases hp : ParseTag nv.name unq with
      | error e =>
        left
        exact ⟨parseError.couldNotParseValue nv.name e, by simp [parseTagListLoop, hu, hp]⟩
      | ok tag =>
        rcases ih (acc ++ [tag]) with ⟨e, he⟩ | ⟨ts, hts, hlen⟩
        · left; exact ⟨e, by simp only [parseTagListLoop, hu, hp]; exact he⟩
        · right
          refine ⟨ts, by simp only [parseTagListLoop, hu, hp]; exact hts, ?_⟩
          simp only [List.length_append, List.length_cons, List.length_nil] at hlen ⊢
          omega

theorem withName_loop (l : List Tag) (n : List Char) :
    ∀ acc, l.foldl (fun r e => if e.name = n then r ++ [e] else r) acc =
      acc ++ l.filter (fun t => decide (t.name = n)) := by
  induction l with
  | nil => intro acc; simp
  | cons t rest ih =>
    intro acc
    by_cases h : t.name = n
    · simp [h, ih, List.filter_cons, List.append_assoc]
    · simp [h, ih, List.filter_cons]

/-! ## Claim theorems -/

/-- C1: for the input string `k1 k2:"v2" k3:"v3a v3b"`, `ParseTagList`
succeeds and returns exactly three Tags in order: `k1` with empty value
and empty parameters, `k2` with value `v2` and empty parameters, and
`k3` with value `v3a v3b` and empty parameters. -/
theorem c1_three_tags :
    ParseTagList (String.toList "k1 k2:\"v2\" k3:\"v3a v3b\"") =
      (some [⟨String.toList "k1", [], []⟩,
             ⟨String.toList "k2", String.toList "v2", []⟩,
             ⟨String.toList "k3", String.toList "v3a v3b", []⟩], none) := rfl

/-- C9: for the empty input string, `ParseTagList` returns an empty tag
list and no error. -/
theorem c9_empty_input : ParseTagList [] = (some [], none) := rfl

/-- C10: `ParseTag` never fails — for every name and tag value string it
returns a Tag (carrying that name) and no error, because
`parseValueAndParameterList` has no reachable error branch: its only
error site forwards an error of `parseParameterList`, which returns none. -/
theorem c10_parsetag_total (name tagValue : List Char) :
    (∃ r, parseValueAndParameterList tagValue = .ok r) ∧
    (∃ t, ParseTag name tagValue = .ok t ∧ t.name = name) := by
  have h : ∃ r, parseValueAndParameterList tagValue = .ok r := by
    unfold parseValueAndParameterList
    by_cases hv : tagValue = []
    · exact ⟨([], []), by simp [hv]⟩
    · cases hsf : splitFirst ',' tagValue with
      | mk v b =>
        cases b with
        | none => exact ⟨(v, []), by simp [hv, hsf]⟩
        | some rest =>
          by_cases hr : rest = []
          · exact ⟨(v, []), by simp [hv, hsf, hr]⟩
          · exact ⟨(v, parseParameterListLoop (splitAll ',' rest) []),
              by simp [hv, hsf, hr, parseParameterList]⟩
  obtain ⟨r, hr⟩ := h
  refine ⟨⟨r, hr⟩, ?_⟩
  obtain ⟨value, parameters⟩ := r
  exact ⟨⟨name, value, parameters⟩, by simp [ParseTag, hr], rfl⟩

/-- C3: for every non-empty unquoted tag value string, the value/parameter
splitter agrees with the spec's description (`specSplitValueAndParameters`,
written from the spec's words): everything before the first comma is the
primary value; the text after the first comma, when non-empty, is split on
every comma, empty entries are dropped without error, each entry is split
on its first colon (value `""` when there is no colon), and a trailing
comma with nothing after it yields an empty parameter list. -/
theorem c3_splitter_matches_spec (v : List Char) (h : v ≠ []) :
    parseValueAndParameterList v = .ok (specSplitValueAndParameters v) := by
  unfold parseValueAndParameterList specSplitValueAndParameters
  cases hsf : splitFirst ',' v with
  | mk primary b =>
    cases b with
    | none => simp [h]
    | some after =>
      by_cases ha : after = []
      · simp [h, ha]
      · simp only [h, if_false, ha, if_neg, parseParameterList,
          parseParameterListLoop_spec]
        simp [h, ha]

/-- C3 witness: the splitter/spec agreement at the spec's own scenario
input `id,table:t`. -/
theorem c3_witness :
    String.toList "id,table:t" ≠ [] ∧
    parseValueAndParameterList (String.toList "id,table:t") =
      .ok (specSplitValueAndParameters (String.toList "id,table:t")) :=
  ⟨by decide, c3_splitter_matches_spec (String.toList "id,table:t") (by decide)⟩

/-- C5: whenever any stage of the pipeline fails, `ParseTagList` returns a
nil tag list together with the (first) error; it never returns a partial
list of tags; on success it returns the full list, one Tag per scanned
position. -/
theorem c5_fail_fast (input : List Char) :
    (∃ e, ParseTagList input = (none, some e)) ∨
    (∃ tps ts, parseTagPositionList input = .ok tps ∧
      ParseTagList input = (some ts, none) ∧ ts.length = tps.length) := by
  unfold ParseTagList
  cases hp : parseTagPositionList input with
  | error e => left; exact ⟨.couldNotParseStructTags e, rfl⟩
  | ok tps =>
    rcases parseTagListLoop_shape (getNamesAndValues tps input) [] with
      ⟨e, he⟩ | ⟨ts, hts, hlen⟩
    · left; exact ⟨e, he⟩
    · right
      refine ⟨tps, ts, rfl, hts, ?_⟩
      simpa [getNamesAndValues] using hlen

/-- C8: the lookup accessors return the first entry whose name matches
(never a later match, never an error), and `none` when no entry matches;
`StructDescription.field` and `FieldDesc.tag` are those same lookups. -/
theorem c8_first_match :
    (∀ (tl : List Tag) (n : List Char),
      tagListGet tl n = tl.find? (fun e => decide (e.name = n))) ∧
    (∀ (fl : List FieldDesc) (n : List Char),
      fieldListGet fl n = fl.find? (fun e => decide (e.name = n))) ∧
    (∀ (sd : StructDescription) (n : List Char),
      sd.field n = fieldListGet sd.fields n) ∧
    (∀ (f : FieldDesc) (n : List Char), f.tag n = tagListGet f.tags n) ∧
    (∀ (pre : List Tag) (t : Tag) (post : List Tag) (n : List Char),
      t.name = n → (∀ u ∈ pre, ¬ u.name = n) →
      tagListGet (pre ++ t :: post) n = some t) ∧
    (∀ (tl : List Tag) (n : List Char),
      (∀ u ∈ tl, ¬ u.name = n) → tagListGet tl n = none) := by
  refine ⟨?_, ?_, fun _ _ => rfl, fun _ _ => rfl, ?_, ?_⟩
  · intro tl n
    induction tl with
    | nil => rfl
    | cons t rest ih =>
      by_cases h : t.name = n
      · simp [tagListGet, h, List.find?]
      · simp [tagListGet, h, List.find?, ih]
  · intro fl n
    induction fl with
    | nil => rfl
    | cons f rest ih =>
      by_cases h : f.name = n
      · simp [fieldListGet, h, List.find?]
      · simp [fieldListGet, h, List.find?, ih]
  · intro pre t post n ht hpre
    induction pre with
    | nil => simp [tagListGet, ht]
    | cons u rest ih =>
      have hu : ¬ u.name = n := hpre u (by simp)
      simp only [List.cons_append, tagListGet, if_neg hu]
      exact ih fun x hx => hpre x (by simp [hx])
  · intro tl n h
    induction tl with
    | nil => rfl
    | cons u rest ih =>
      have hu : ¬ u.name = n := h u (by simp)
      simp only [tagListGet, if_neg hu]
      exact ih fun x hx => h x (by simp [hx])

/-- C8 witness: with two entries named `z` after one named `a`, the lookup
returns the first `z` entry, not the later one. -/
theorem c8_witness :
    tagListGet ([⟨String.toList "a", [], []⟩] ++
        ⟨String.toList "z", String.toList "1", []⟩ ::
        [⟨String.toList "z", String.toList "2", []⟩]) (String.toList "z") =
      some ⟨String.toList "z", String.toList "1", []⟩ :=
  c8_first_match.2.2.2.2.1 [⟨String.toList "a", [], []⟩]
    ⟨String.toList "z", String.toList "1", []⟩
    [⟨String.toList "z", String.toList "2", []⟩] (String.toList "z")
    (by decide) (by decide)

/-! ## The scanner on colon-free, quote-free input (claim C2) -/

theorem drop_cons_succ (s : List Char) (i : Nat) (c : Char) (rest : List Char)
    (h : s.drop i = c :: rest) : s.drop (i + 1) = rest := by
  have h1 : (s.drop i).drop 1 = s.drop (i + 1) := List.drop_drop 1 i s
  rw [h] at h1
  simpa using h1.symm

theorem substr_one (s : List Char) (i : Nat) (c : Char) (rest : List Char)
    (h : s.drop i = c :: rest) : substr s i (i + 1) = [c] := by
  unfold substr
  rw [h]
  simp

theorem substr_snoc (s : List Char) (a i : Nat) (c : Char) (rest : List Char)
    (ha : a ≤ i) (h : s.drop i = c :: rest) :
    substr s a (i + 1) = substr s a i ++ [c] := by
  have hi : i < s.length := by
    by_contra hn
    push_neg at hn
    rw [List.drop_eq_nil_of_le hn] at h
    cases h
  unfold substr
  have hd : (s.drop a).drop (i - a) = c :: rest := by
    rw [List.drop_drop, Nat.add_sub_cancel' ha, h]
  have hsplit : s.drop a = (s.drop a).take (i - a) ++ (c :: rest) := by
    conv_lhs => rw [← List.take_append_drop (i - a) (s.drop a)]
    rw [hd]
  have hlen : ((s.drop a).take (i - a)).length = i - a := by
    rw [List.length_take, List.length_drop]
    omega
  conv_lhs => rw [hsplit]
  conv_rhs => rw [hsplit]
  rw [List.take_append_eq_append_take, hlen,
      List.take_append_eq_append_take, hlen]
  have h1 : ((s.drop a).take (i - a)).take (i + 1 - a) = (s.drop a).take (i - a) := by
    apply List.take_of_length_le
    omega
  have h2 : ((s.drop a).take (i - a)).take (i - a) = (s.drop a).take (i - a) := by
    apply List.take_of_length_le
    omega
  rw [h1, h2]
  have h3 : i + 1 - a - (i - a) = 1 := by omega
  have h4 : i - a - (i - a) = 0 := by omega
  rw [h3, h4]
  simp

theorem scan_plain (l : List Char) :
    (∀ c ∈ l, plainChar c = true) →
    ((∀ i ps, scanFinish (i + l.length)
        (scanLoop (enumFrom i l) .initial ⟨0, 0, 0, 0, 0⟩ ps) =
        .ok (ps ++ tokenPositionsInit i l)) ∧
     (∀ i start ps, scanFinish (i + l.length)
        (scanLoop (enumFrom i l) .readingName ⟨start, 0, 0, 0, 0⟩ ps) =
        .ok (ps ++ tokenPositionsName start i l))) := by
  induction l with
  | nil =>
    intro _
    constructor
    · intro i ps
      simp [enumFrom, scanLoop, scanFinish, tokenPositionsInit]
    · intro i start ps
      simp [enumFrom, scanLoop, scanFinish, tokenPositionsName]
  | cons c rest ih =>
    intro hgood
    have hc := hgood c (by simp)
    have hrest := ih (fun d hd => hgood d (by simp [hd]))
    have hlen : ∀ i : Nat, i + (c :: rest).length = (i + 1) + rest.length := by
      intro i; simp; omega
    constructor
    · intro i ps
      rw [hlen]
      by_cases hsp : c = ' '
      · subst hsp
        have hstep : scanLoop (enumFrom i (' ' :: rest)) .initial ⟨0, 0, 0, 0, 0⟩ ps =
            scanLoop (enumFrom (i + 1) rest) .initial ⟨0, 0, 0, 0, 0⟩ ps := rfl
        rw [hstep, show tokenPositionsInit i (' ' :: rest) =
          tokenPositionsInit (i + 1) rest from by simp [tokenPositionsInit]]
        exact hrest.1 (i + 1) ps
      · have hv : validTagNameCharacter c = true := by
          have := hc
          simp only [plainChar, Bool.or_eq_true, beq_iff_eq] at this
          tauto
        have hstep : scanLoop (enumFrom i (c :: rest)) .initial ⟨0, 0, 0, 0, 0⟩ ps =
            scanLoop (enumFrom (i + 1) rest) .readingName ⟨i, 0, 0, 0, 0⟩ ps := by
          simp only [enumFrom, scanLoop, scanStep, if_neg hsp, hv, if_true]
        rw [hstep, show tokenPositionsInit i (c :: rest) =
          tokenPositionsName i (i + 1) rest from by simp [tokenPositionsInit, hsp]]
        exact hrest.2 (i + 1) i ps
    · intro i start ps
      rw [hlen]
      by_cases hsp : c = ' '
      · subst hsp
        have hstep : scanLoop (enumFrom i (' ' :: rest)) .readingName ⟨start, 0, 0, 0, 0⟩ ps =
            scanLoop (enumFrom (i + 1) rest) .initial ⟨0, 0, 0, 0, 0⟩
              (ps ++ [⟨start, i - 1, 0, 0, 0⟩]) := rfl
        rw [hstep, show tokenPositionsName start i (' ' :: rest) =
          ⟨start, i - 1, 0, 0, 0⟩ :: tokenPositionsInit (i + 1) rest from by
            simp [tokenPositionsName]]
        have h3 := hrest.1 (i + 1)
          (ps ++ [(⟨start, i - 1, 0, 0, 0⟩ : tagPosition)])
        exact h3.trans (by simp)
      · have hv : validTagNameCharacter c = true := by
          have := hc
          simp only [plainChar, Bool.or_eq_true, beq_iff_eq] at this
          tauto
        have hstep : scanLoop (enumFrom i (c :: rest)) .readingName ⟨start, 0, 0, 0, 0⟩ ps =
            scanLoop (enumFrom (i + 1) rest) .readingName ⟨start, 0, 0, 0, 0⟩ ps := by
          simp only [enumFrom, scanLoop, scanStep, hv, if_true]
        rw [hstep, show tokenPositionsName start i (c :: rest) =
          tokenPositionsName start (i + 1) rest from by simp [tokenPositionsName, hsp]]
        exact hrest.2 (i + 1) start ps

theorem map_tokens (s : List Char) (l : List Char) :
    ((∀ i, l = s.drop i →
      (tokenPositionsInit i l).map (fun p => p.getNameAndValue s) =
        (spaceTokensInit l).map (fun t => (⟨t, []⟩ : tagNameAndValue))) ∧
     (∀ i start, l = s.drop i → start < i →
      (tokenPositionsName start i l).map (fun p => p.getNameAndValue s) =
        (spaceTokensName (substr s start i) l).map
          (fun t => (⟨t, []⟩ : tagNameAndValue)))) := by
  induction l with
  | nil =>
    constructor
    · intro i _
      simp [tokenPositionsInit, spaceTokensInit]
    · intro i start _ hlt
      have hi : i - 1 + 1 = i := by omega
      simp [tokenPositionsName, spaceTokensName, tagPosition.getNameAndValue,
        tagPosition.getName, tagPosition.getValue, hi]
  | cons c rest ih =>
    constructor
    · intro i hdrop
      by_cases hsp : c = ' '
      · subst hsp
        simp only [tokenPositionsInit, if_pos rfl, spaceTokensInit]
        exact ih.1 (i + 1) (drop_cons_succ s i ' ' rest hdrop.symm).symm
      · simp only [tokenPositionsInit, if_neg hsp, spaceTokensInit]
        have h1 : substr s i (i + 1) = [c] := substr_one s i c rest hdrop.symm
        have h2 := ih.2 (i + 1) i (drop_cons_succ s i c rest hdrop.symm).symm (by omega)
        rw [h1] at h2
        exact h2
    · intro i start hdrop hlt
      by_cases hsp : c = ' '
      · subst hsp
        have hi : i - 1 + 1 = i := by omega
        have hrw1 : tokenPositionsName start i (' ' :: rest) =
            ⟨start, i - 1, 0, 0, 0⟩ :: tokenPositionsInit (i + 1) rest := by
          simp [tokenPositionsName]
        have hrw2 : spaceTokensName (substr s start i) (' ' :: rest) =
            substr s start i :: spaceTokensInit rest := by
          simp [spaceTokensName]
        rw [hrw1, hrw2, List.map_cons, List.map_cons,
          ih.1 (i + 1) (drop_cons_succ s i ' ' rest hdrop.symm).symm]
        simp [tagPosition.getNameAndValue, tagPosition.getName,
          tagPosition.getValue, hi]
      · simp only [tokenPositionsName, if_neg hsp, spaceTokensName]
        have hsn : substr s start (i + 1) = substr s start i ++ [c] :=
          substr_snoc s start i c rest (by omega) hdrop.symm
        have h2 := ih.2 (i + 1) start (drop_cons_succ s i c rest hdrop.symm).symm (by omega)
        rw [hsn] at h2
        exact h2

/-- C2 counterexample: `a$` contains no colon and no quote character, yet
`ParseTagList` fails (with the scanner's unexpected-character error)
instead of returning one Tag per whitespace-separated token. -/
theorem c2_counterexample :
    (¬ ':' ∈ String.toList "a$") ∧ (¬ '"' ∈ String.toList "a$") ∧
    ParseTagList (String.toList "a$") =
      (none, some (.couldNotParseStructTags
        (.unexpectedCharacter '$' 1 .readingName))) :=
  ⟨by decide, by decide, rfl⟩

/-- C2 (amended): for every input string consisting only of spaces and
valid tag name characters, `ParseTagList` succeeds and returns one Tag
per space-separated token of the input — named by that token — each with
empty value and an empty parameter list. -/
theorem c2_plain_tokens (s : List Char) (h : ∀ c ∈ s, plainChar c = true) :
    ParseTagList s =
      (some ((spaceTokensInit s).map (fun t => (⟨t, [], []⟩ : Tag))), none) := by
  have hscan : parseTagPositionList s = .ok (tokenPositionsInit 0 s) := by
    have h0 := (scan_plain s h).1 0 []
    simpa [parseTagPositionList] using h0
  have hmap : getNamesAndValues (tokenPositionsInit 0 s) s =
      (spaceTokensInit s).map (fun t => (⟨t, []⟩ : tagNameAndValue)) := by
    have h1 := (map_tokens s s).1 0 (by simp)
    simpa [getNamesAndValues] using h1
  have hloop : ∀ (ts : List (List Char)) (acc : List Tag),
      parseTagListLoop (ts.map (fun t => (⟨t, []⟩ : tagNameAndValue))) acc =
        (some (acc ++ ts.map (fun t => (⟨t, [], []⟩ : Tag))), none) := by
    intro ts
    induction ts with
    | nil => intro acc; simp [parseTagListLoop]
    | cons t rest ihh =>
      intro acc
      have hu : (⟨t, []⟩ : tagNameAndValue).unquotedValue = .ok [] := rfl
      have hp : ParseTag t [] = .ok ⟨t, [], []⟩ := rfl
      simp only [List.map_cons, parseTagListLoop, hu, hp]
      rw [ihh]
      simp
  unfold ParseTagList
  rw [hscan]
  show parseTagListLoop (getNamesAndValues (tokenPositionsInit 0 s) s) [] = _
  rw [hmap, hloop]
  simp

/-- C2 witness: the amended statement instantiated at `k1  k2`. -/
theorem c2_plain_tokens_witness :
    (∀ c ∈ String.toList "k1  k2", plainChar c = true) ∧
    ParseTagList (String.toList "k1  k2") =
      (some ((spaceTokensInit (String.toList "k1  k2")).map
        (fun t => (⟨t, [], []⟩ : Tag))), none) :=
  ⟨by decide, c2_plain_tokens (String.toList "k1  k2") (by decide)⟩

/-! ## End-of-input behaviour of the scanner (claim C4) -/

theorem scanStep_error_shape (st : parseTagPositionListState) (cur : tagPosition)
    (ps : List tagPosition) (i : Nat) (c : Char) (e : scanError)
    (h : scanStep st cur ps i c = .error e) :
    ∃ c2 i2 st2, e = .unexpectedCharacter c2 i2 st2 := by
  cases st <;> simp only [scanStep] at h <;>
    first
      | exact Except.noConfusion h
      | (split_ifs at h <;>
          first
            | exact Except.noConfusion h
            | (injection h with h2; exact ⟨c, i, _, h2.symm⟩))

theorem scanLoop_error_shape (l : List (Nat × Char)) :
    ∀ (st : parseTagPositionListState) (cur : tagPosition)
      (ps : List tagPosition) (e : scanError),
      scanLoop l st cur ps = .error e →
      ∃ c2 i2 st2, e = .unexpectedCharacter c2 i2 st2 := by
  induction l with
  | nil =>
    intro st cur ps e h
    exact Except.noConfusion h
  | cons ic rest ih =>
    obtain ⟨i, c⟩ := ic
    intro st cur ps e h
    rw [scanLoop] at h
    cases hs : scanStep st cur ps i c with
    | error e2 =>
      rw [hs] at h
      injection h with h2
      exact h2 ▸ scanStep_error_shape st cur ps i c e2 hs
    | ok res =>
      obtain ⟨st2, cur2, ps2⟩ := res
      rw [hs] at h
      exact ih st2 cur2 ps2 e h

/-- C4: the scanner fails with an `UnexpectedEndOfInput` error naming the
final state exactly when the character loop finishes in state
`ExpectValue`, `ReadingValue` or `ReadingEscapedCharacter`; the input
`k:` fails naming `ExpectValue`; and finishing in `ReadingName` instead
emits the current valueless name with end-of-string as `nameEnd`. -/
theorem c4_eof_error (tag : List Char) :
    (∀ st cur ps,
      scanLoop (enumFrom 0 tag) .initial ⟨0, 0, 0, 0, 0⟩ [] = .ok (st, cur, ps) →
      ((st = .expectValue ∨ st = .readingValue ∨ st = .readingEscapedCharacter) ↔
        parseTagPositionList tag = .error (.unexpectedEndOfInput st))) ∧
    (∀ st, parseTagPositionList tag = .error (.unexpectedEndOfInput st) →
      (st = .expectValue ∨ st = .readingValue ∨ st = .readingEscapedCharacter) ∧
      ∃ cur ps,
        scanLoop (enumFrom 0 tag) .initial ⟨0, 0, 0, 0, 0⟩ [] = .ok (st, cur, ps)) ∧
    (∀ cur ps,
      scanLoop (enumFrom 0 tag) .initial ⟨0, 0, 0, 0, 0⟩ [] =
        .ok (.readingName, cur, ps) →
      parseTagPositionList tag =
        .ok (ps ++ [{ cur with nameEnd := tag.length - 1 }])) ∧
    parseTagPositionList (String.toList "k:") =
      .error (.unexpectedEndOfInput .expectValue) := by
  refine ⟨?_, ?_, ?_, rfl⟩
  · intro st cur ps h
    unfold parseTagPositionList
    rw [h]
    cases st <;> simp [scanFinish]
  · intro st h
    unfold parseTagPositionList at h
    cases hl : scanLoop (enumFrom 0 tag) .initial ⟨0, 0, 0, 0, 0⟩ [] with
    | error e =>
      rw [hl] at h
      injection h with h2
      obtain ⟨c2, i2, st2, he⟩ :=
        scanLoop_error_shape (enumFrom 0 tag) .initial ⟨0, 0, 0, 0, 0⟩ [] e hl
      rw [he] at h2
      exact scanError.noConfusion h2
    | ok res =>
      obtain ⟨st2, cur2, ps2⟩ := res
      rw [hl] at h
      cases st2 <;> simp [scanFinish] at h <;> subst h
      · exact ⟨Or.inl rfl, cur2, ps2, rfl⟩
      · exact ⟨Or.inr (Or.inl rfl), cur2, ps2, rfl⟩
      · exact ⟨Or.inr (Or.inr rfl), cur2, ps2, rfl⟩
  · intro cur ps h
    unfold parseTagPositionList
    rw [h]
    rfl

/-- C4 witness: on `k:` the loop ends in state `ExpectValue` and the
theorem's equivalence yields the `UnexpectedEndOfInput ExpectValue`
error. -/
theorem c4_eof_error_witness :
    scanLoop (enumFrom 0 (String.toList "k:")) .initial ⟨0, 0, 0, 0, 0⟩ [] =
      .ok (.expectValue, ⟨0, 0, 1, 0, 0⟩, []) ∧
    parseTagPositionList (String.toList "k:") =
      .error (.unexpectedEndOfInput .expectValue) :=
  ⟨rfl, ((c4_eof_error (String.toList "k:")).1 .expectValue ⟨0, 0, 1, 0, 0⟩ []
    rfl).mp (Or.inl rfl)⟩

/-! ## Round-trip through a well-formed quoted pair (claim C7) -/

theorem enumFrom_append (l1 : List Char) :
    ∀ (i : Nat) (l2 : List Char),
      enumFrom i (l1 ++ l2) = enumFrom i l1 ++ enumFrom (i + l1.length) l2 := by
  induction l1 with
  | nil => intro i l2; simp [enumFrom]
  | cons c rest ih =>
    intro i l2
    simp only [List.cons_append, enumFrom, List.length_cons, List.append_eq]
    rw [ih (i + 1) l2]
    have h2 : i + 1 + rest.length = i + (rest.length + 1) := by omega
    rw [h2]

theorem scanLoop_append (l1 l2 : List (Nat × Char)) :
    ∀ st cur ps, scanLoop (l1 ++ l2) st cur ps =
      match scanLoop l1 st cur ps with
      | .error e => .error e
      | .ok (st2, cur2, ps2) => scanLoop l2 st2 cur2 ps2 := by
  induction l1 with
  | nil => intro st cur ps; simp [scanLoop]
  | cons ic rest ih =>
    obtain ⟨i, c⟩ := ic
    intro st cur ps
    simp only [List.cons_append, scanLoop]
    cases scanStep st cur ps i c with
    | error e => rfl
    | ok res =>
      obtain ⟨st2, cur2, ps2⟩ := res
      exact ih st2 cur2 ps2

theorem scanLoop_name_stay (l : List Char) :
    ∀ (i : Nat) (cur : tagPosition) (ps : List tagPosition),
      (∀ c ∈ l, validTagNameCharacter c = true) →
      scanLoop (enumFrom i l) .readingName cur ps = .ok (.readingName, cur, ps) := by
  induction l with
  | nil => intro i cur ps _; rfl
  | cons c rest ih =>
    intro i cur ps h
    have hv : validTagNameCharacter c = true := h c (by simp)
    have hstep : scanStep .readingName cur ps i c = .ok (.readingName, cur, ps) := by
      simp [scanStep, hv]
    simp only [enumFrom, scanLoop, hstep]
    exact ih (i + 1) cur ps (fun d hd => h d (by simp [hd]))

theorem scanLoop_value_stay (items : List QuoteItem) :
    ∀ (i : Nat) (cur : tagPosition) (ps : List tagPosition),
      (∀ it ∈ items, goodQuoteItem it = true) →
      scanLoop (enumFrom i (itemsChars items)) .readingValue cur ps =
        .ok (.readingValue, cur, ps) := by
  induction items with
  | nil => intro i cur ps _; rfl
  | cons it rest ih =>
    intro i cur ps h
    have hit : goodQuoteItem it = true := h it (by simp)
    have hrest := fun d => ih d cur ps (fun x hx => h x (by simp [hx]))
    cases it with
    | plain c =>
      simp only [goodQuoteItem, Bool.and_eq_true, Bool.not_eq_true',
        beq_eq_false_iff_ne, ne_eq] at hit
      obtain ⟨⟨h1, h2⟩, h3⟩ := hit
      have hstep : scanStep .readingValue cur ps i c = .ok (.readingValue, cur, ps) := by
        simp [scanStep, h1, h2]
      have hchars : itemsChars (QuoteItem.plain c :: rest) = c :: itemsChars rest := rfl
      rw [hchars]
      simp only [enumFrom, scanLoop, hstep]
      exact hrest (i + 1)
    | esc e =>
      have hchars : itemsChars (QuoteItem.esc e :: rest) =
          '\\' :: e :: itemsChars rest := rfl
      rw [hchars]
      have hstep1 : scanStep .readingValue cur ps i '\\' =
          .ok (.readingEscapedCharacter, cur, ps) := rfl
      have hstep2 : scanStep .readingEscapedCharacter cur ps (i + 1) e =
          .ok (.readingValue, cur, ps) := rfl
      simp only [enumFrom, scanLoop, hstep1, hstep2]
      exact hrest (i + 2)

theorem unquoteBody_items (items : List QuoteItem) :
    (∀ it ∈ items, goodQuoteItem it = true) →
    unquoteBody (itemsChars items ++ ['"']) = .ok (itemsDecode items) := by
  induction items with
  | nil => intro _; rfl
  | cons it rest ih =>
    intro h
    have hit : goodQuoteItem it = true := h it (by simp)
    have hrest := ih (fun x hx => h x (by simp [hx]))
    cases it with
    | plain c =>
      simp only [goodQuoteItem, Bool.and_eq_true, Bool.not_eq_true',
        beq_eq_false_iff_ne, ne_eq] at hit
      obtain ⟨⟨h1, h2⟩, h3⟩ := hit
      cases hL : itemsChars rest ++ ['"'] with
      | nil => simp at hL
      | cons e rest2 =>
        have hchars : itemsChars (QuoteItem.plain c :: rest) ++ ['"'] =
            c :: e :: rest2 := by
          simp only [itemsChars, itemChars, List.singleton_append,
            List.cons_append, List.nil_append, hL]
        rw [hchars]
        rw [hL] at hrest
        simp only [unquoteBody, if_neg h1, if_neg h3, if_neg h2, hrest]
        rfl
    | esc e =>
      simp only [goodQuoteItem] at hit
      obtain ⟨d, hd⟩ := Option.isSome_iff_exists.mp hit
      have hchars : itemsChars (QuoteItem.esc e :: rest) ++ ['"'] =
          '\\' :: e :: (itemsChars rest ++ ['"']) := by
        simp [itemsChars, itemChars]
      rw [hchars]
      have hq : ¬ ('\\' : Char) = '"' := by decide
      have hn : ¬ ('\\' : Char) = '\n' := by decide
      simp only [unquoteBody, if_neg hq, if_neg hn, if_pos rfl, hd, hrest]
      simp [itemsDecode, itemDecode, hd]

theorem scanLoop_key (key : List Char) (hk : key ≠ [])
    (hkc : ∀ c ∈ key, validTagNameCharacter c = true) :
    scanLoop (enumFrom 0 key) .initial ⟨0, 0, 0, 0, 0⟩ [] =
      .ok (.readingName, ⟨0, 0, 0, 0, 0⟩, []) := by
  cases key with
  | nil => exact absurd rfl hk
  | cons k0 ktail =>
    have hv : validTagNameCharacter k0 = true := hkc k0 (by simp)
    have hsp : ¬ k0 = ' ' := by
      intro he
      rw [he] at hv
      exact absurd hv (by decide)
    have hstep : scanStep .initial ⟨0, 0, 0, 0, 0⟩ [] 0 k0 =
        .ok (.readingName, ⟨0, 0, 0, 0, 0⟩, []) := by
      simp [scanStep, hsp, hv]
    simp only [enumFrom, scanLoop, hstep]
    exact scanLoop_name_stay ktail 1 ⟨0, 0, 0, 0, 0⟩ []
      (fun d hd => hkc d (by simp [hd]))

theorem scan_quoted (key : List Char) (items : List QuoteItem)
    (hk : key ≠ [])
    (hkc : ∀ c ∈ key, validTagNameCharacter c = true)
    (hi : ∀ it ∈ items, goodQuoteItem it = true) :
    parseTagPositionList (key ++ ':' :: '"' :: (itemsChars items ++ ['"'])) =
      .ok [⟨0, key.length - 1, key.length, key.length + 1,
        key.length + 2 + (itemsChars items).length⟩] := by
  unfold parseTagPositionList
  rw [enumFrom_append, scanLoop_append, scanLoop_key key hk hkc]
  show scanFinish _
    (scanLoop (enumFrom (0 + key.length) (':' :: '"' :: (itemsChars items ++ ['"'])))
      .readingName ⟨0, 0, 0, 0, 0⟩ []) = _
  rw [Nat.zero_add]
  have hstep1 : scanStep .readingName ⟨0, 0, 0, 0, 0⟩ [] key.length ':' =
      .ok (.expectValue, ⟨0, key.length - 1, key.length, 0, 0⟩, []) := rfl
  have hstep2 : scanStep .expectValue ⟨0, key.length - 1, key.length, 0, 0⟩ []
      (key.length + 1) '"' =
      .ok (.readingValue, ⟨0, key.length - 1, key.length, key.length + 1, 0⟩, []) := rfl
  simp only [enumFrom, scanLoop, hstep1, hstep2]
  rw [enumFrom_append, scanLoop_append,
    scanLoop_value_stay items (key.length + 1 + 1)
      ⟨0, key.length - 1, key.length, key.length + 1, 0⟩ [] hi]
  show scanFinish _
    (scanLoop (enumFrom (key.length + 1 + 1 + (itemsChars items).length) ['"'])
      .readingValue ⟨0, key.length - 1, key.length, key.length + 1, 0⟩ []) = _
  have hstep3 : ∀ j : Nat, scanStep .readingValue
      ⟨0, key.length - 1, key.length, key.length + 1, 0⟩ [] j '"' =
      .ok (.initial, ⟨0, 0, 0, 0, 0⟩,
        [⟨0, key.length - 1, key.length, key.length + 1, j⟩]) := fun j => rfl
  simp only [enumFrom, scanLoop, hstep3, scanFinish]

/-- C7: for any well-formed `key:"value"` pair — a non-empty name of valid
tag name characters, and a quoted body of plain characters and supported
backslash escapes — the scanner produces exactly one position, the
extracted value span is the literal quoted text (quotes included), and
unquoting it reproduces exactly the text between the quotes with all
escapes resolved. -/
theorem c7_roundtrip (key : List Char) (items : List QuoteItem)
    (input : List Char) (tp : tagPosition)
    (hk : key ≠ [])
    (hkc : ∀ c ∈ key, validTagNameCharacter c = true)
    (hi : ∀ it ∈ items, goodQuoteItem it = true)
    (hinput : input = key ++ ':' :: '"' :: (itemsChars items ++ ['"']))
    (htp : tp = ⟨0, key.length - 1, key.length, key.length + 1,
      key.length + 2 + (itemsChars items).length⟩) :
    parseTagPositionList input = .ok [tp] ∧
    tp.getName input = key ∧
    tp.getValue input = '"' :: (itemsChars items ++ ['"']) ∧
    tagNameAndValue.unquotedValue ⟨tp.getName input, tp.getValue input⟩ =
      .ok (itemsDecode items) := by
  subst hinput htp
  have hklen : 1 ≤ key.length := by
    cases key with
    | nil => exact absurd rfl hk
    | cons a b => simp
  have hname : tagPosition.getName
      ⟨0, key.length - 1, key.length, key.length + 1,
        key.length + 2 + (itemsChars items).length⟩
      (key ++ ':' :: '"' :: (itemsChars items ++ ['"'])) = key := by
    unfold tagPosition.getName substr
    have h1 : key.length - 1 + 1 = key.length := by omega
    rw [h1]
    simp only [List.drop_zero, Nat.sub_zero]
    rw [List.take_append_eq_append_take,
      List.take_of_length_le (Nat.le_refl key.length)]
    simp [Nat.sub_self]
  have hvalue : tagPosition.getValue
      ⟨0, key.length - 1, key.length, key.length + 1,
        key.length + 2 + (itemsChars items).length⟩
      (key ++ ':' :: '"' :: (itemsChars items ++ ['"'])) =
      '"' :: (itemsChars items ++ ['"']) := by
    unfold tagPosition.getValue
    rw [if_neg (by omega : ¬ key.length = 0)]
    unfold substr
    have hsub : key.length + 2 + (itemsChars items).length + 1 -
        (key.length + 1) = (itemsChars items).length + 2 := by omega
    rw [hsub]
    have hsplit : key ++ ':' :: '"' :: (itemsChars items ++ ['"']) =
        (key ++ [':']) ++ ('"' :: (itemsChars items ++ ['"'])) := by simp
    have hlen2 : (key ++ [':']).length = key.length + 1 := by simp
    have hdrop : (key ++ ':' :: '"' :: (itemsChars items ++ ['"'])).drop
        (key.length + 1) = '"' :: (itemsChars items ++ ['"']) := by
      rw [hsplit]
      have hdl := List.drop_left (key ++ [':']) ('"' :: (itemsChars items ++ ['"']))
      rwa [hlen2] at hdl
    rw [hdrop]
    apply List.take_of_length_le
    simp only [List.length_cons, List.length_append, List.length_nil]
    omega
  have hunq : ∀ (nm v : List Char),
      tagNameAndValue.unquotedValue ⟨nm, '"' :: v⟩ = unquoteBody v := by
    intro nm v
    unfold tagNameAndValue.unquotedValue unquote
    simp
  refine ⟨scan_quoted key items hk hkc hi, hname, hvalue, ?_⟩
  rw [hname, hvalue, hunq]
  exact unquoteBody_items items hi

/-- C7 witness: the round trip at `k:"v\n"` (one plain character and one
escaped newline). -/
theorem c7_roundtrip_witness :
    ((String.toList "k" ≠ []) ∧
     (∀ c ∈ String.toList "k", validTagNameCharacter c = true) ∧
     (∀ it ∈ [QuoteItem.plain 'v', QuoteItem.esc 'n'],
        goodQuoteItem it = true)) ∧
    (parseTagPositionList (String.toList "k:\"v\\n\"") =
        .ok [⟨0, 0, 1, 2, 6⟩] ∧
      tagPosition.getName ⟨0, 0, 1, 2, 6⟩ (String.toList "k:\"v\\n\"") =
        String.toList "k" ∧
      tagPosition.getValue ⟨0, 0, 1, 2, 6⟩ (String.toList "k:\"v\\n\"") =
        '"' :: (itemsChars [QuoteItem.plain 'v', QuoteItem.esc 'n'] ++ ['"']) ∧
      tagNameAndValue.unquotedValue
        ⟨tagPosition.getName ⟨0, 0, 1, 2, 6⟩ (String.toList "k:\"v\\n\""),
         tagPosition.getValue ⟨0, 0, 1, 2, 6⟩ (String.toList "k:\"v\\n\"")⟩ =
        .ok (itemsDecode [QuoteItem.plain 'v', QuoteItem.esc 'n'])) :=
  ⟨⟨by decide, by decide, by decide⟩,
   c7_roundtrip (String.toList "k") [QuoteItem.plain 'v', QuoteItem.esc 'n']
     (String.toList "k:\"v\\n\"") ⟨0, 0, 1, 2, 6⟩
     (by decide) (by decide) (by decide) (by decide) (by decide)⟩

/-! ## Ordering and no-deduplication on every successful input (claim C6) -/

theorem listGetqAppendLeft {α : Type} (l1 : List α) :
    ∀ (l2 : List α) (k : Nat), k < l1.length → (l1 ++ l2)[k]? = l1[k]? := by
  induction l1 with
  | nil => intro l2 k hk; simp at hk
  | cons a rest ih =>
    intro l2 k hk
    cases k with
    | zero => simp
    | succ j =>
      simp only [List.cons_append, List.getElem?_cons_succ]
      exact ih l2 j (by simpa using hk)

theorem listGetqConcat {α : Type} (l : List α) (a : α) :
    (l ++ [a])[l.length]? = some a := by
  induction l with
  | nil => rfl
  | cons b rest ih =>
    simp only [List.cons_append, List.length_cons, List.getElem?_cons_succ]
    exact ih

theorem chain_append_singleton {α : Type} {R : α → α → Prop} :
    ∀ (l : List α) (x : α), List.Chain' R l → (∀ a ∈ l, R a x) →
      List.Chain' R (l ++ [x]) := by
  intro l
  induction l with
  | nil =>
    intro x _ _
    simp only [List.nil_append]
    exact List.chain'_singleton x
  | cons a rest ih =>
    intro x h hx
    cases rest with
    | nil =>
      simp only [List.cons_append, List.nil_append]
      exact List.chain'_cons.mpr ⟨hx a (by simp), List.chain'_singleton x⟩
    | cons b rest2 =>
      simp only [List.cons_append]
      rw [List.chain'_cons]
      rw [List.chain'_cons] at h
      exact ⟨h.1, ih x h.2 (fun y hy => hx y (by simp [hy]))⟩

theorem scanLoop_mono (rest : List Char) :
    ∀ (i : Nat) (st : parseTagPositionListState) (cur : tagPosition)
      (ps : List tagPosition) (st2 : parseTagPositionListState)
      (cur2 : tagPosition) (ps2 : List tagPosition),
      List.Chain' (fun p q => p.nameStart < q.nameStart) ps →
      (∀ p ∈ ps, p.nameStart < i) →
      (st = .initial ∨ ((∀ p ∈ ps, p.nameStart < cur.nameStart) ∧
        cur.nameStart < i)) →
      scanLoop (enumFrom i rest) st cur ps = .ok (st2, cur2, ps2) →
      List.Chain' (fun p q => p.nameStart < q.nameStart) ps2 ∧
      (∀ p ∈ ps2, p.nameStart < i + rest.length) ∧
      (st2 = .initial ∨ ((∀ p ∈ ps2, p.nameStart < cur2.nameStart) ∧
        cur2.nameStart < i + rest.length)) := by
  induction rest with
  | nil =>
    intro i st cur ps st2 cur2 ps2 hch hlt hcur h
    simp only [enumFrom, scanLoop, Except.ok.injEq, Prod.mk.injEq] at h
    obtain ⟨rfl, rfl, rfl⟩ := h
    refine ⟨hch, fun p hp => by simpa using hlt p hp, ?_⟩
    rcases hcur with h1 | ⟨h1, h2⟩
    · exact Or.inl h1
    · exact Or.inr ⟨h1, by simpa using h2⟩
  | cons c crest ih =>
    intro i st cur ps st2 cur2 ps2 hch hlt hcur h
    rw [show enumFrom i (c :: crest) = (i, c) :: enumFrom (i + 1) crest from rfl,
      scanLoop] at h
    cases hs : scanStep st cur ps i c with
    | error e =>
      rw [hs] at h
      exact Except.noConfusion h
    | ok res =>
      obtain ⟨stm, curm, psm⟩ := res
      rw [hs] at h
      have hinv : List.Chain' (fun p q => p.nameStart < q.nameStart) psm ∧
          (∀ p ∈ psm, p.nameStart < i + 1) ∧
          (stm = .initial ∨ ((∀ p ∈ psm, p.nameStart < curm.nameStart) ∧
            curm.nameStart < i + 1)) := by
        cases st with
        | initial =>
          simp only [scanStep] at hs
          split_ifs at hs with h1 h2
          · simp only [Except.ok.injEq, Prod.mk.injEq] at hs
            obtain ⟨rfl, rfl, rfl⟩ := hs
            exact ⟨hch, fun p hp => by have := hlt p hp; omega, Or.inl rfl⟩
          · simp only [Except.ok.injEq, Prod.mk.injEq] at hs
            obtain ⟨rfl, rfl, rfl⟩ := hs
            exact ⟨hch, fun p hp => by have := hlt p hp; omega,
              Or.inr ⟨fun p hp => hlt p hp, Nat.lt_succ_self i⟩⟩
        | readingName =>
          rcases hcur with hbad | ⟨hps, hci⟩
          · exact parseTagPositionListState.noConfusion hbad
          · simp only [scanStep] at hs
            split_ifs at hs with h1 h2 h3
            · simp only [Except.ok.injEq, Prod.mk.injEq] at hs
              obtain ⟨rfl, rfl, rfl⟩ := hs
              exact ⟨hch, fun p hp => by have := hlt p hp; omega,
                Or.inr ⟨hps, by omega⟩⟩
            · simp only [Except.ok.injEq, Prod.mk.injEq] at hs
              obtain ⟨rfl, rfl, rfl⟩ := hs
              exact ⟨hch, fun p hp => by have := hlt p hp; omega,
                Or.inr ⟨fun p hp => hps p hp,
                  (by omega : cur.nameStart < i + 1)⟩⟩
            · simp only [Except.ok.injEq, Prod.mk.injEq] at hs
              obtain ⟨rfl, rfl, rfl⟩ := hs
              refine ⟨chain_append_singleton ps _ hch (fun p hp => hps p hp),
                ?_, Or.inl rfl⟩
              intro p hp
              rcases List.mem_append.mp hp with hp1 | hp2
              · have := hlt p hp1; omega
              · rw [List.mem_singleton] at hp2
                subst hp2
                show cur.nameStart < i + 1
                omega
        | expectValue =>
          rcases hcur with hbad | ⟨hps, hci⟩
          · exact parseTagPositionListState.noConfusion hbad
          · simp only [scanStep] at hs
            split_ifs at hs with h1 h2
            · simp only [Except.ok.injEq, Prod.mk.injEq] at hs
              obtain ⟨rfl, rfl, rfl⟩ := hs
              exact ⟨hch, fun p hp => by have := hlt p hp; omega,
                Or.inr ⟨hps, by omega⟩⟩
            · simp only [Except.ok.injEq, Prod.mk.injEq] at hs
              obtain ⟨rfl, rfl, rfl⟩ := hs
              exact ⟨hch, fun p hp => by have := hlt p hp; omega,
                Or.inr ⟨fun p hp => hps p hp,
                  (by omega : cur.nameStart < i + 1)⟩⟩
        | readingValue =>
          rcases hcur with hbad | ⟨hps, hci⟩
          · exact parseTagPositionListState.noConfusion hbad
          · simp only [scanStep] at hs
            split_ifs at hs with h1 h2
            · simp only [Except.ok.injEq, Prod.mk.injEq] at hs
              obtain ⟨rfl, rfl, rfl⟩ := hs
              refine ⟨chain_append_singleton ps _ hch (fun p hp => hps p hp),
                ?_, Or.inl rfl⟩
              intro p hp
              rcases List.mem_append.mp hp with hp1 | hp2
              · have := hlt p hp1; omega
              · rw [List.mem_singleton] at hp2
                subst hp2
                show cur.nameStart < i + 1
                omega
            · simp only [Except.ok.injEq, Prod.mk.injEq] at hs
              obtain ⟨rfl, rfl, rfl⟩ := hs
              exact ⟨hch, fun p hp => by have := hlt p hp; omega,
                Or.inr ⟨hps, by omega⟩⟩
            · simp only [Except.ok.injEq, Prod.mk.injEq] at hs
              obtain ⟨rfl, rfl, rfl⟩ := hs
              exact ⟨hch, fun p hp => by have := hlt p hp; omega,
                Or.inr ⟨hps, by omega⟩⟩
        | readingEscapedCharacter =>
          rcases hcur with hbad | ⟨hps, hci⟩
          · exact parseTagPositionListState.noConfusion hbad
          · simp only [scanStep, Except.ok.injEq, Prod.mk.injEq] at hs
            obtain ⟨rfl, rfl, rfl⟩ := hs
            exact ⟨hch, fun p hp => by have := hlt p hp; omega,
              Or.inr ⟨hps, by omega⟩⟩
      obtain ⟨hA, hB, hC⟩ := hinv
      have hres := ih (i + 1) stm curm psm st2 cur2 ps2 hA hB hC h
      refine ⟨hres.1, fun p hp => ?_, ?_⟩
      · have := hres.2.1 p hp
        simp only [List.length_cons]
        omega
      · rcases hres.2.2 with h9 | ⟨h9, h10⟩
        · exact Or.inl h9
        · refine Or.inr ⟨h9, ?_⟩
          simp only [List.length_cons]
          omega

theorem parseTagPositionList_mono (input : List Char) (tps : List tagPosition)
    (h : parseTagPositionList input = .ok tps) :
    List.Chain' (fun p q => p.nameStart < q.nameStart) tps := by
  unfold parseTagPositionList at h
  cases hl : scanLoop (enumFrom 0 input) .initial ⟨0, 0, 0, 0, 0⟩ [] with
  | error e =>
    rw [hl] at h
    exact Except.noConfusion h
  | ok res =>
    obtain ⟨st2, cur2, ps2⟩ := res
    rw [hl] at h
    have hm := scanLoop_mono input 0 .initial ⟨0, 0, 0, 0, 0⟩ [] st2 cur2 ps2
      List.chain'_nil (by simp) (Or.inl rfl) hl
    cases st2 with
    | initial =>
      simp only [scanFinish] at h
      injection h with h2
      rw [← h2]
      exact hm.1
    | readingName =>
      simp only [scanFinish] at h
      injection h with h2
      rw [← h2]
      rcases hm.2.2 with hbad | ⟨hps, _⟩
      · exact parseTagPositionListState.noConfusion hbad
      · exact chain_append_singleton ps2 _ hm.1 (fun p hp => hps p hp)
    | expectValue => simp [scanFinish] at h
    | readingValue => simp [scanFinish] at h
    | readingEscapedCharacter => simp [scanFinish] at h

theorem parseTagListLoop_success (nvs : List tagNameAndValue) :
    ∀ (acc : List Tag) (ts : List Tag),
      parseTagListLoop nvs acc = (some ts, none) →
      ts.length = acc.length + nvs.length ∧
      (∀ k, k < acc.length → ts[k]? = acc[k]?) ∧
      (∀ k, k < nvs.length →
        ∃ nv u t, nvs[k]? = some nv ∧ nv.unquotedValue = .ok u ∧
          ParseTag nv.name u = .ok t ∧ ts[acc.length + k]? = some t) := by
  induction nvs with
  | nil =>
    intro acc ts h
    simp only [parseTagListLoop, Prod.mk.injEq, Option.some.injEq, and_true] at h
    subst h
    exact ⟨by simp, fun k _ => rfl, fun k hk => absurd hk (by simp)⟩
  | cons nv rest ih =>
    intro acc ts h
    cases hu : nv.unquotedValue with
    | error e =>
      simp only [parseTagListLoop, hu] at h
      exact absurd h (by simp)
    | ok u =>
      cases hp : ParseTag nv.name u with
      | error e =>
        simp only [parseTagListLoop, hu, hp] at h
        exact absurd h (by simp)
      | ok t =>
        simp only [parseTagListLoop, hu, hp] at h
        obtain ⟨hlen, hpre, hrest⟩ := ih (acc ++ [t]) ts h
        refine ⟨?_, ?_, ?_⟩
        · simp only [List.length_append, List.length_cons,
            List.length_nil] at hlen ⊢
          omega
        · intro k hk
          rw [hpre k (by simp only [List.length_append, List.length_cons,
            List.length_nil]; omega)]
          exact listGetqAppendLeft acc [t] k hk
        · intro k hk
          cases k with
          | zero =>
            refine ⟨nv, u, t, by simp, hu, hp, ?_⟩
            rw [Nat.add_zero, hpre acc.length
              (by simp only [List.length_append, List.length_cons,
                List.length_nil]; omega)]
            exact listGetqConcat acc t
          | succ j =>
            obtain ⟨nv2, u2, t2, h1, h2, h3, h4⟩ := hrest j (by simpa using hk)
            refine ⟨nv2, u2, t2, by simpa using h1, h2, h3, ?_⟩
            have harith : acc.length + (j + 1) = (acc ++ [t]).length + j := by
              simp only [List.length_append, List.length_cons, List.length_nil]
              omega
            rw [harith]
            exact h4

theorem parseTag_spec (nm u : List Char) (t : Tag) (h : ParseTag nm u = .ok t) :
    t.name = nm ∧
    t.parameters = (match splitFirst ',' u with
      | (_, none) => []
      | (_, some after) =>
        if after = [] then []
        else ((splitAll ',' after).filter (fun e => !e.isEmpty)).map
          specEntryToParameter) := by
  by_cases hu : u = []
  · subst hu
    have he : ParseTag nm [] = .ok ⟨nm, [], []⟩ := rfl
    rw [he] at h
    injection h with h2
    rw [← h2]
    exact ⟨rfl, rfl⟩
  · cases hsf : splitFirst ',' u with
    | mk v b =>
      cases b with
      | none =>
        have hv : parseValueAndParameterList u = .ok (v, []) := by
          simp [parseValueAndParameterList, hu, hsf]
        have he : ParseTag nm u = .ok ⟨nm, v, []⟩ := by
          simp [ParseTag, hv]
        rw [he] at h
        injection h with h2
        rw [← h2]
        refine ⟨rfl, ?_⟩
        simp only [hsf]
      | some after =>
        by_cases ha : after = []
        · subst ha
          have hv : parseValueAndParameterList u = .ok (v, []) := by
            simp [parseValueAndParameterList, hu, hsf]
          have he : ParseTag nm u = .ok ⟨nm, v, []⟩ := by
            simp [ParseTag, hv]
          rw [he] at h
          injection h with h2
          rw [← h2]
          refine ⟨rfl, ?_⟩
          simp only [hsf]
          rfl
        · have hv : parseValueAndParameterList u =
              .ok (v, parseParameterListLoop (splitAll ',' after) []) := by
            simp [parseValueAndParameterList, hu, hsf, ha, parseParameterList]
          have he : ParseTag nm u =
              .ok ⟨nm, v, parseParameterListLoop (splitAll ',' after) []⟩ := by
            simp [ParseTag, hv]
          rw [he] at h
          injection h with h2
          rw [← h2]
          refine ⟨rfl, ?_⟩
          simp only [hsf, if_neg ha]
          simpa using parseParameterListLoop_spec (splitAll ',' after) []

/-- C6: for every input string on which `ParseTagList` succeeds, the
returned Tags appear in left-to-right order of their occurrence in the
source string — the scanned positions are strictly increasing in source
offset and the k-th Tag is built from the k-th position, so duplicate tag
names are all kept without deduplication; each Tag's parameters are the
order-preserving entry list of its value (duplicate parameter names
kept); `withName` is exactly an order-preserving filter by name; and on
the spec's repeated-tag scenario `z:"x,x:1,x:2" z:"y,y:1,y:2"` both Tags
named `z` come back in order, as does filtering them by name `z`. -/
theorem c6_order_and_duplicates :
    ParseTagList (String.toList "z:\"x,x:1,x:2\" z:\"y,y:1,y:2\"") =
      (some [⟨String.toList "z", String.toList "x",
              [⟨String.toList "x", String.toList "1"⟩,
               ⟨String.toList "x", String.toList "2"⟩]⟩,
             ⟨String.toList "z", String.toList "y",
              [⟨String.toList "y", String.toList "1"⟩,
               ⟨String.toList "y", String.toList "2"⟩]⟩], none) ∧
    withName [⟨String.toList "z", String.toList "x",
               [⟨String.toList "x", String.toList "1"⟩,
                ⟨String.toList "x", String.toList "2"⟩]⟩,
              ⟨String.toList "z", String.toList "y",
               [⟨String.toList "y", String.toList "1"⟩,
                ⟨String.toList "y", String.toList "2"⟩]⟩] (String.toList "z") =
      [⟨String.toList "z", String.toList "x",
        [⟨String.toList "x", String.toList "1"⟩,
         ⟨String.toList "x", String.toList "2"⟩]⟩,
       ⟨String.toList "z", String.toList "y",
        [⟨String.toList "y", String.toList "1"⟩,
         ⟨String.toList "y", String.toList "2"⟩]⟩] ∧
    (∀ (l : List Tag) (n : List Char),
      withName l n = l.filter (fun t => decide (t.name = n))) ∧
    (∀ (nm u : List Char) (t : Tag), ParseTag nm u = .ok t →
      t.name = nm ∧
      t.parameters = (match splitFirst ',' u with
        | (_, none) => []
        | (_, some after) =>
          if after = [] then []
          else ((splitAll ',' after).filter (fun e => !e.isEmpty)).map
            specEntryToParameter)) ∧
    (∀ (input : List Char) (ts : List Tag),
      ParseTagList input = (some ts, none) →
      ∃ tps, parseTagPositionList input = .ok tps ∧
        List.Chain' (fun p q => p.nameStart < q.nameStart) tps ∧
        ts.length = tps.length ∧
        ∀ k, k < tps.length →
          ∃ p u t, tps[k]? = some p ∧
            (p.getNameAndValue input).unquotedValue = .ok u ∧
            ParseTag (p.getName input) u = .ok t ∧
            t.name = p.getName input ∧
            ts[k]? = some t) := by
  refine ⟨rfl, rfl, fun l n => by simpa [withName] using withName_loop l n [],
    fun nm u t h => parseTag_spec nm u t h, ?_⟩
  intro input ts h
  unfold ParseTagList at h
  cases hp : parseTagPositionList input with
  | error e =>
    simp only [hp] at h
    exact absurd h (by simp)
  | ok tps =>
    simp only [hp] at h
    obtain ⟨hlen, hpre, hcorr⟩ :=
      parseTagListLoop_success (getNamesAndValues tps input) [] ts h
    refine ⟨tps, rfl, parseTagPositionList_mono input tps hp, ?_, ?_⟩
    · simpa [getNamesAndValues] using hlen
    · intro k hk
      obtain ⟨nv, u, t, h1, h2, h3, h4⟩ :=
        hcorr k (by simpa [getNamesAndValues] using hk)
      have h5 : (tps[k]?).map (fun p => p.getNameAndValue input) = some nv := by
        rw [← List.getElem?_map]
        exact h1
      cases h6 : tps[k]? with
      | none =>
        rw [h6] at h5
        exact absurd h5 (by simp)
      | some p =>
        rw [h6] at h5
        simp only [Option.map_some'] at h5
        injection h5 with h7
        refine ⟨p, u, t, rfl, ?_, ?_, ?_, ?_⟩
        · rw [h7]; exact h2
        · rw [show p.getName input = (p.getNameAndValue input).name from rfl, h7]
          exact h3
        · have h8 : ParseTag nv.name u = .ok t := h3
          have h9 := (parseTag_spec nv.name u t h8).1
          rw [h9, ← h7]
          rfl
        · simpa using h4

/-- C6 witness: the universal ordering/no-deduplication conjunct
instantiated at the repeated-tag scenario input, with its success
hypothesis discharged by evaluation. -/
theorem c6_order_witness :
    ParseTagList (String.toList "z:\"x,x:1,x:2\" z:\"y,y:1,y:2\"") =
      (some [⟨String.toList "z", String.toList "x",
              [⟨String.toList "x", String.toList "1"⟩,
               ⟨String.toList "x", String.toList "2"⟩]⟩,
             ⟨String.toList "z", String.toList "y",
              [⟨String.toList "y", String.toList "1"⟩,
               ⟨String.toList "y", String.toList "2"⟩]⟩], none) ∧
    (∃ tps, parseTagPositionList
        (String.toList "z:\"x,x:1,x:2\" z:\"y,y:1,y:2\"") = .ok tps ∧
      List.Chain' (fun p q => p.nameStart < q.nameStart) tps ∧
      ([⟨String.toList "z", String.toList "x",
         [⟨String.toList "x", String.toList "1"⟩,
          ⟨String.toList "x", String.toList "2"⟩]⟩,
        ⟨String.toList "z", String.toList "y",
         [⟨String.toList "y", String.toList "1"⟩,
          ⟨String.toList "y", String.toList "2"⟩]⟩] : List Tag).length =
        tps.length ∧
      ∀ k, k < tps.length →
        ∃ p u t, tps[k]? = some p ∧
          (p.getNameAndValue
            (String.toList "z:\"x,x:1,x:2\" z:\"y,y:1,y:2\"")).unquotedValue =
            .ok u ∧
          ParseTag (p.getName
            (String.toList "z:\"x,x:1,x:2\" z:\"y,y:1,y:2\"")) u = .ok t ∧
          t.name = p.getName
            (String.toList "z:\"x,x:1,x:2\" z:\"y,y:1,y:2\"") ∧
          ([⟨String.toList "z", String.toList "x",
             [⟨String.toList "x", String.toList "1"⟩,
              ⟨String.toList "x", String.toList "2"⟩]⟩,
            ⟨String.toList "z", String.toList "y",
             [⟨String.toList "y", String.toList "1"⟩,
              ⟨String.toList "y", String.toList "2"⟩]⟩] : List Tag)[k]? =
            some t) :=
  ⟨rfl,
   c6_order_and_duplicates.2.2.2.2
     (String.toList "z:\"x,x:1,x:2\" z:\"y,y:1,y:2\"")
     [⟨String.toList "z", String.toList "x",
       [⟨String.toList "x", String.toList "1"⟩,
        ⟨String.toList "x", String.toList "2"⟩]⟩,
      ⟨String.toList "z", String.toList "y",
       [⟨String.toList "y", String.toList "1"⟩,
        ⟨String.toList "y", String.toList "2"⟩]⟩] rfl⟩
